import Mathlib

/-
Verification of the go2vec word-embedding store and similarity engine.

The development shallowly embeds the canonical (latest) version of the
package: the `Embeddings` structure with its operations
`ReadWord2VecBinary`, `Write`, `Put`, `Similarity`, `Analogy`, the shared
ranking core `similarity` / `insertWithLimit`, and the row normalizer
`normalizeEmbeddings`.

Modelling conventions:
  * 32-bit floats are modelled by exact rationals (ℚ).  All ranking,
    serialization and store-maintenance claims are about comparisons,
    list order and bookkeeping, which floats decide exactly as the reals
    do on the inputs involved.  For the one claim about non-finite
    results of normalization, a second scalar type `F` (rationals
    extended with NaN and infinities, IEEE-style special-value rules) is
    used, and the loader is instantiated at it as well.
  * The byte stream of the word2vec binary format is a `List (BItem α)`:
    a text byte is `BItem.chr c`, and the four little-endian bytes of
    one 32-bit float are the single opaque token `BItem.f32 x` (the
    encoding of a float is a bijection, so claims about bit-identical
    round-trips are claims about token equality).
  * Go maps are association lists with update-in-place insertion
    (`mapInsert`) and first-match lookup (`mapLookup`); reachable maps
    have unique keys, so this matches Go map lookup semantics.  The skip
    set of the ranking core is a small `List ℕ` with membership tests.
  * `sort.Search(n, f)` is modelled by its documented contract: the
    smallest index `i < n` with `f i = true`, and `n` when there is none
    (the predicate used by the code is monotone on the sorted result
    list it is applied to, where binary and linear search agree).
  * Go `int` query limits are ℤ, so that nonpositive limits behave as in
    the source.  Sizes and indices are ℕ.
-/

/-- A similarity query result: a word and its score (source: WordSimilarity). -/
structure WordSimilarity where
  Word : String
  Similarity : ℚ
deriving DecidableEq, Repr

/-- The word-embedding store (source: Embeddings): a flat row-major matrix,
the embedding size, the word-to-row map and the row-to-word list. -/
structure Embeddings where
  matrix : List ℚ
  embedSize : ℕ
  indices : List (String × ℕ)
  words : List String
deriving DecidableEq, Repr

/-- Go map insertion `m[k] = v`: replace the binding of `k`, or append one. -/
def mapInsert (m : List (String × ℕ)) (k : String) (v : ℕ) : List (String × ℕ) :=
  match m with
  | [] => [(k, v)]
  | p :: rest => if p.1 = k then (k, v) :: rest else p :: mapInsert rest k v

/-- Go map lookup `m[k]`: the value of the first binding of `k`, if any. -/
def mapLookup (m : List (String × ℕ)) (k : String) : Option ℕ :=
  match m with
  | [] => none
  | p :: rest => if p.1 = k then some p.2 else mapLookup rest k

/-- Source: NewEmbeddings — an empty store with the given embedding size. -/
def NewEmbeddings (embedSize : ℕ) : Embeddings :=
  ⟨[], embedSize, [], []⟩

/-- Source: Embeddings.Size — the number of words, `len(e.indices)`. -/
def Embeddings.Size (e : Embeddings) : ℕ := e.indices.length

/-- Source: Embeddings.EmbeddingSize. -/
def Embeddings.EmbeddingSize (e : Embeddings) : ℕ := e.embedSize

/-- Source: Embeddings.lookupIdx — the row slice
`e.matrix[idx*embedSize : (idx+1)*embedSize]`. -/
def Embeddings.lookupIdx (e : Embeddings) (idx : ℕ) : List ℚ :=
  (e.matrix.drop (idx * e.embedSize)).take e.embedSize

/-- Source: dotProduct — sum over `v` of `v[i] * w[i]` (callers pass
equal-length vectors). -/
def dotProduct (v w : List ℚ) : ℚ :=
  (List.zipWith (fun a b => a * b) v w).sum

/-- Source: minus — componentwise difference. -/
def minus (v w : List ℚ) : List ℚ :=
  List.zipWith (fun a b => a - b) v w

/-- Source: plus — componentwise sum. -/
def plus (v w : List ℚ) : List ℚ :=
  List.zipWith (fun a b => a + b) v w

/-- Model of `sort.Search(len(results), func(i) { results[i].Similarity <= sim })`:
the smallest index whose entry has score at most `sim`, or the length when
there is none (the documented contract of sort.Search). -/
def sortSearch (results : List WordSimilarity) (sim : ℚ) : ℕ :=
  match results with
  | [] => 0
  | r :: rest => if r.Similarity ≤ sim then 0 else sortSearch rest sim + 1

/-- Source: insertWithLimit — if below the limit, append a zero value, then
shift `slice[index : len-1]` one place right and write `value` at `index`.
The functional rendering of the copy is: keep the first `index` entries,
put `value`, then the old entries from `index` on, minus the last one. -/
def insertWithLimit (slice : List WordSimilarity) (limit : ℤ) (index : ℕ)
    (value : WordSimilarity) : List WordSimilarity :=
  let s := if (slice.length : ℤ) < limit then slice ++ [⟨"", 0⟩] else slice
  s.take index ++ value :: (s.drop index).take (s.length - 1 - index)

/-- One iteration of the ranking loop of `Embeddings.similarity`: skip
excluded rows, compute the row's score, find the insertion point, and insert
when it falls inside the first `limit` slots. -/
def simStep (e : Embeddings) (embed : List ℚ) (skips : List ℕ) (limit : ℤ)
    (results : List WordSimilarity) (idx : ℕ) : List WordSimilarity :=
  if idx ∈ skips then results
  else
    let sim := dotProduct embed (e.lookupIdx idx)
    let ip := sortSearch results sim
    if (ip : ℤ) < limit then
      insertWithLimit results limit ip ⟨e.words.getD idx "", sim⟩
    else results

/-- Source: Embeddings.similarity — scores every row `0 ≤ idx < e.Size()`
(the Sgemv matrix-vector product gives `dps[idx] = dot(row idx, embed)`),
then maintains the bounded sorted result list.  The source always returns a
nil error. -/
def Embeddings.similarity (e : Embeddings) (embed : List ℚ) (skips : List ℕ)
    (limit : ℤ) : Except String (List WordSimilarity) :=
  Except.ok ((List.range e.Size).foldl (simStep e embed skips limit) [])

/-- Source: Embeddings.Similarity — look the word up, exclude its row, rank. -/
def Embeddings.Similarity (e : Embeddings) (word : String) (limit : ℤ) :
    Except String (List WordSimilarity) :=
  match mapLookup e.indices word with
  | none => Except.error ("Unknown word: " ++ word)
  | some idx => e.similarity (e.lookupIdx idx) [idx] limit

/-- Source: Embeddings.Analogy — look up the three words in order, fail on
the first missing one, rank `(e2 - e1) + e3` excluding the three rows. -/
def Embeddings.Analogy (e : Embeddings) (word1 word2 word3 : String)
    (limit : ℤ) : Except String (List WordSimilarity) :=
  match mapLookup e.indices word1 with
  | none => Except.error ("Unknown word: " ++ word1)
  | some idx1 =>
    match mapLookup e.indices word2 with
    | none => Except.error ("Unknown word: " ++ word2)
    | some idx2 =>
      match mapLookup e.indices word3 with
      | none => Except.error ("Unknown word: " ++ word3)
      | some idx3 =>
        e.similarity (plus (minus (e.lookupIdx idx2) (e.lookupIdx idx1)) (e.lookupIdx idx3))
          [idx1, idx2, idx3] limit

/-- Go `copy(m[start:], src)`: overwrite at most `len(m) - start` elements of
`m` from `start` on with the corresponding elements of `src`. -/
def copyAt (m : List ℚ) (start : ℕ) (src : List ℚ) : List ℚ :=
  m.take start ++ src.take (m.length - start) ++ m.drop (start + src.length)

/-- Source: Embeddings.Put — reject a wrong-length embedding; overwrite the
row of a known word in place; append a fresh word to all three structures.
The Go method mutates its receiver and returns an error; the model returns
the store after the call together with the returned error. -/
def Embeddings.Put (e : Embeddings) (word : String) (embedding : List ℚ) :
    Embeddings × Option String :=
  if embedding.length ≠ e.embedSize then
    (e, some ("Expected embedding size: " ++ toString e.embedSize ++ ", got: "
      ++ toString embedding.length))
  else
    match mapLookup e.indices word with
    | some idx => ({ e with matrix := copyAt e.matrix (idx * e.embedSize) embedding }, none)
    | none => ({ e with
        indices := mapInsert e.indices word e.words.length,
        words := e.words ++ [word],
        matrix := e.matrix ++ embedding }, none)

/-- A rational stand-in for `float32(math.Sqrt(float64(x)))` on `x ≥ 0`:
`√(n/d)` is approximated by `⌊√(n·d)⌋ / d`.  It is exact on perfect squares
and, in particular, is zero exactly at zero, which is the only property any
claim depends on. -/
def ratSqrt (q : ℚ) : ℚ :=
  ((Nat.sqrt (q.num.toNat * q.den) : ℚ)) / ((q.den : ℚ))

/-- Source: normalizeEmbeddings — divide every component by the row's
Euclidean norm.  In ℚ the division by a zero norm yields 0; the claim about
non-finite results of that division is settled on the IEEE-style scalar
model below. -/
def normalizeEmbeddings (embedding : List ℚ) : List ℚ :=
  let embedLen := ratSqrt (embedding.foldl (fun acc val => acc + val * val) 0)
  embedding.map (fun val => val / embedLen)

/-- One token of the binary word2vec stream: a text byte, or the four
little-endian bytes of one 32-bit float as a single opaque token. -/
inductive BItem (α : Type) where
  | chr : Char → BItem α
  | f32 : α → BItem α
deriving DecidableEq, Repr

/-- The decimal digits Go's `%d` prints for a natural number. -/
def digitChar (d : ℕ) : Char := Char.ofNat (48 + d)

/-- Decimal representation of a natural number as characters. -/
def natChars (n : ℕ) : List Char :=
  if n = 0 then [Char.ofNat 48] else (Nat.digits 10 n).reverse.map digitChar

/-- The record loop of `Embeddings.Write`: for each word, in `e.words`
order, the word's bytes, one space, then the row's floats. -/
def writeRecords (e : Embeddings) : List String → ℕ → List (BItem ℚ)
  | [], _ => []
  | word :: ws, idx =>
    word.data.map BItem.chr
      ++ BItem.chr ' ' :: ((e.lookupIdx idx).map BItem.f32 ++ writeRecords e ws (idx + 1))

/-- Source: Embeddings.Write — nothing if the store has no words or
embedding size 0; otherwise the header `"%d %d\n"` followed by the records
in `e.words` (row) order. -/
def Embeddings.Write (e : Embeddings) : List (BItem ℚ) :=
  if e.words.length = 0 then []
  else if e.embedSize = 0 then []
  else
    (natChars e.words.length).map BItem.chr
      ++ BItem.chr ' ' :: ((natChars e.embedSize).map BItem.chr
      ++ BItem.chr '\n' :: writeRecords e e.words 0)

/-- Whitespace in the sense of `strings.TrimSpace` (the ASCII space class;
words in the binary format are byte tokens delimited by a single space). -/
def goSpace (c : Char) : Bool :=
  c == ' ' || c == '\t' || c == '\n' || c == '\x0b' || c == '\x0c' || c == '\r'

/-- Is a stream token a whitespace text byte. -/
def isChrSpace {α : Type} : BItem α → Bool
  | BItem.chr c => goSpace c
  | BItem.f32 _ => false

/-- Is a stream token a decimal-digit text byte. -/
def isChrDigit {α : Type} : BItem α → Bool
  | BItem.chr c => c.isDigit
  | BItem.f32 _ => false

/-- The text byte of a stream token, if it is one. -/
def itemChar {α : Type} : BItem α → Option Char
  | BItem.chr c => some c
  | BItem.f32 _ => none

/-- The numeric value of a decimal digit string. -/
def natOfChars (cs : List Char) : ℕ :=
  cs.foldl (fun a c => 10 * a + (c.toNat - 48)) 0

/-- Model of `fmt.Fscanf(r, "%d", &n)`: skip whitespace, read a nonempty
digit run, fail otherwise. -/
def scanNat {α : Type} (s : List (BItem α)) : Except String (ℕ × List (BItem α)) :=
  let s1 := s.dropWhile isChrSpace
  let ds := (s1.takeWhile isChrDigit).filterMap itemChar
  if ds.isEmpty then Except.error "input does not match format"
  else Except.ok (natOfChars ds, s1.dropWhile isChrDigit)

/-- Model of `r.ReadString(' ')`: the text bytes up to and including the
first space (the source discards the error of this read). -/
def readToSpace {α : Type} : List (BItem α) → List Char × List (BItem α)
  | [] => ([], [])
  | BItem.chr c :: rest =>
    if c = ' ' then ([c], rest)
    else
      let p := readToSpace rest
      (c :: p.1, p.2)
  | BItem.f32 x :: rest => ([], BItem.f32 x :: rest)

/-- Model of `strings.TrimSpace` on a character list. -/
def trimSpace (cs : List Char) : List Char :=
  ((cs.dropWhile goSpace).reverse.dropWhile goSpace).reverse

/-- Model of `binary.Read` of `n` little-endian 32-bit floats: consume `n`
float tokens, fail when the stream is exhausted or misaligned. -/
def readFloats {α : Type} : ℕ → List (BItem α) → Except String (List α × List (BItem α))
  | 0, s => Except.ok ([], s)
  | n + 1, BItem.f32 x :: rest =>
    match readFloats n rest with
    | Except.error msg => Except.error msg
    | Except.ok (xs, r) => Except.ok (x :: xs, r)
  | _ + 1, _ => Except.error "unexpected EOF"

/-- The record loop of `ReadWord2VecBinary`: `count` times, read a word up
to the space, trim it, then read `vSize` floats. -/
def readRecords {α : Type} (vSize : ℕ) : ℕ → List (BItem α) →
    Except String (List (String × List α))
  | 0, _ => Except.ok []
  | n + 1, s =>
    let w := readToSpace s
    let word := String.mk (trimSpace w.1)
    match readFloats vSize w.2 with
    | Except.error msg => Except.error msg
    | Except.ok (row, s2) =>
      match readRecords vSize n s2 with
      | Except.error msg => Except.error msg
      | Except.ok rest => Except.ok ((word, row) :: rest)

/-- The index map built by the read loop: `indices[word] = idx` for each
record in order. -/
def buildIndicesAux : ℕ → List String → List (String × ℕ) → List (String × ℕ)
  | _, [], m => m
  | i, w :: ws, m => buildIndicesAux (i + 1) ws (mapInsert m w i)

/-- The index map of a loaded store. -/
def buildIndices (ws : List String) : List (String × ℕ) :=
  buildIndicesAux 0 ws []

/-- Source: ReadWord2VecBinary — parse the two header integers, read the
records, optionally L2-normalize each row in place, and assemble the store.
The source fills a preallocated `nWords*vSize` matrix and the maps inside
the loop; the model reads the records first and assembles the same final
fields. -/
def ReadWord2VecBinary (s : List (BItem ℚ)) (normalize : Bool) :
    Except String Embeddings :=
  match scanNat s with
  | Except.error msg => Except.error msg
  | Except.ok (nWords, s1) =>
    match scanNat s1 with
    | Except.error msg => Except.error msg
    | Except.ok (vSize, s2) =>
      match readRecords vSize nWords s2 with
      | Except.error msg => Except.error msg
      | Except.ok pairs0 =>
        let pairs := if normalize then
            pairs0.map (fun p => (p.1, normalizeEmbeddings p.2)) else pairs0
        Except.ok ⟨(pairs.map Prod.snd).flatten, vSize,
          buildIndices (pairs.map Prod.fst), pairs.map Prod.fst⟩

/-- IEEE-style scalar: a finite rational, NaN, or a signed infinity
(`true` = negative).  Finite values are exact; only the special-value rules
of IEEE 754 are modelled, which is all the non-finiteness claim uses. -/
inductive F where
  | fin : ℚ → F
  | nan : F
  | inf : Bool → F
deriving DecidableEq, Repr

/-- IEEE-style addition on `F`. -/
def fadd : F → F → F
  | F.fin a, F.fin b => F.fin (a + b)
  | F.nan, _ => F.nan
  | _, F.nan => F.nan
  | F.inf s, F.inf t => if s = t then F.inf s else F.nan
  | F.inf s, F.fin _ => F.inf s
  | F.fin _, F.inf t => F.inf t

/-- IEEE-style multiplication on `F`. -/
def fmul : F → F → F
  | F.fin a, F.fin b => F.fin (a * b)
  | F.nan, _ => F.nan
  | _, F.nan => F.nan
  | F.inf s, F.inf t => F.inf (xor s t)
  | F.inf s, F.fin q => if q = 0 then F.nan else F.inf (xor s (decide (q < 0)))
  | F.fin q, F.inf t => if q = 0 then F.nan else F.inf (xor (decide (q < 0)) t)

/-- IEEE-style division on `F`: in particular `0 / 0 = NaN` and
`x / 0 = ±∞` for finite nonzero `x`. -/
def fdiv : F → F → F
  | F.fin a, F.fin b =>
    if b = 0 then (if a = 0 then F.nan else F.inf (decide (a < 0)))
    else F.fin (a / b)
  | F.nan, _ => F.nan
  | _, F.nan => F.nan
  | F.fin _, F.inf _ => F.fin 0
  | F.inf s, F.fin q => F.inf (xor s (decide (q < 0)))
  | F.inf _, F.inf _ => F.nan

/-- IEEE-style square root on `F` (rational approximation on finite
nonnegative values, exact at 0 and on perfect squares; NaN on negatives). -/
def fsqrt : F → F
  | F.fin q => if q < 0 then F.nan else F.fin (ratSqrt q)
  | F.nan => F.nan
  | F.inf s => if s then F.nan else F.inf false

/-- Source: normalizeEmbeddings, on the IEEE-style scalar: an all-zero row
is divided by a zero norm, componentwise `0 / 0 = NaN`. -/
def normalizeEmbeddingsF (embedding : List F) : List F :=
  let embedLen := fsqrt (embedding.foldl (fun acc val => fadd acc (fmul val val)) (F.fin 0))
  embedding.map (fun val => fdiv val embedLen)

/-- The store with IEEE-style scalar entries (for the normalization claim). -/
structure EmbeddingsF where
  matrix : List F
  embedSize : ℕ
  indices : List (String × ℕ)
  words : List String
deriving DecidableEq, Repr

/-- Row slice of the IEEE-style store. -/
def EmbeddingsF.lookupIdx (e : EmbeddingsF) (idx : ℕ) : List F :=
  (e.matrix.drop (idx * e.embedSize)).take e.embedSize

/-- Source: ReadWord2VecBinary, instantiated at the IEEE-style scalar. -/
def ReadWord2VecBinaryF (s : List (BItem F)) (normalize : Bool) :
    Except String EmbeddingsF :=
  match scanNat s with
  | Except.error msg => Except.error msg
  | Except.ok (nWords, s1) =>
    match scanNat s1 with
    | Except.error msg => Except.error msg
    | Except.ok (vSize, s2) =>
      match readRecords vSize nWords s2 with
      | Except.error msg => Except.error msg
      | Except.ok pairs0 =>
        let pairs := if normalize then
            pairs0.map (fun p => (p.1, normalizeEmbeddingsF p.2)) else pairs0
        Except.ok ⟨(pairs.map Prod.snd).flatten, vSize,
          buildIndices (pairs.map Prod.fst), pairs.map Prod.fst⟩

/-- Modelled from the spec (for the serialization-order claim): Serialize
writes the two header integers, then for each word in `word_at_index`
(insertion) order the word, a single space, and its floats; it writes
nothing if the store is empty or the embedding size is 0. -/
def writeSpecOrdered (e : Embeddings) : List (BItem ℚ) :=
  if e.words = [] ∨ e.embedSize = 0 then []
  else
    (natChars e.words.length).map BItem.chr
      ++ BItem.chr ' ' :: ((natChars e.embedSize).map BItem.chr
      ++ BItem.chr '\n'
      :: (List.range e.words.length).foldr
          (fun i acc => (e.words.getD i "").data.map BItem.chr
            ++ BItem.chr ' ' :: ((e.lookupIdx i).map BItem.f32 ++ acc)) [])

/-- The store's maintained shape: the index map and the word list are
mutually inverse with dense indices `0..N-1`, and the matrix holds exactly
one row of `embedSize` entries per word. -/
def StoreInv (e : Embeddings) : Prop :=
  e.indices.length = e.words.length ∧
  e.matrix.length = e.words.length * e.embedSize ∧
  e.words.Nodup ∧
  (∀ p ∈ e.indices, p.2 < e.words.length ∧ e.words.getD p.2 "" = p.1) ∧
  (∀ i, i < e.words.length → mapLookup e.indices (e.words.getD i "") = some i)

instance (e : Embeddings) : Decidable (StoreInv e) := by
  unfold StoreInv; infer_instance

/-- Count of rows the ranking loop visits and does not skip. -/
def eligibleCount (e : Embeddings) (skips : List ℕ) : ℕ :=
  ((List.range e.Size).filter (fun i => decide (i ∉ skips))).length

/-- Scores non-increasing from the first entry to the last. -/
def sortedDesc (l : List WordSimilarity) : Prop :=
  l.Pairwise (fun a b => b.Similarity ≤ a.Similarity)

instance (l : List WordSimilarity) : Decidable (sortedDesc l) := by
  unfold sortedDesc; infer_instance

deriving instance DecidableEq for Except

/-- The concrete scenario store: embedding size 2, apple, pear, banana. -/
def demoStore : Embeddings :=
  (((((NewEmbeddings 2).Put "apple" [1, 0]).1.Put "pear" [0.8, 0.1]).1.Put
    "banana" [0.2, 1]).1)

/-- The tie store: three rows with identical embeddings, so the two
non-query rows score equally against the query row. -/
def tieStore : Embeddings :=
  ((((NewEmbeddings 1).Put "q" [1]).1.Put "a" [1]).1.Put "b" [1]).1

/-- A well-formed stream declaring two records, both with word "a":
`"2 1\n" ++ "a " ++ float(1) ++ "a " ++ float(1)`. -/
def dupStream : List (BItem ℚ) :=
  [BItem.chr '2', BItem.chr ' ', BItem.chr '1', BItem.chr '\n',
   BItem.chr 'a', BItem.chr ' ', BItem.f32 1,
   BItem.chr 'a', BItem.chr ' ', BItem.f32 1]

/-- A well-formed stream with two records of dimension 2: "b" with the
vector (3, 4) and "z" with the all-zero vector. -/
def c10Stream : List (BItem F) :=
  [BItem.chr '2', BItem.chr ' ', BItem.chr '2', BItem.chr '\n',
   BItem.chr 'b', BItem.chr ' ', BItem.f32 (F.fin 3), BItem.f32 (F.fin 4),
   BItem.chr 'z', BItem.chr ' ', BItem.f32 (F.fin 0), BItem.f32 (F.fin 0)]

/-- The record list produced by reading back written records: each word of
`ws` paired with its row, rows numbered from `i` on. -/
def pairsOf (e : Embeddings) : List String → ℕ → List (String × List ℚ)
  | [], _ => []
  | w :: ws, i => (w, e.lookupIdx i) :: pairsOf e ws (i + 1)

/-- The association list a duplicate-free read loop builds: word `j` of the
record list bound to index `i + j`. -/
def idxPairs : ℕ → List String → List (String × ℕ)
  | _, [] => []
  | i, w :: ws => (w, i) :: idxPairs (i + 1) ws

theorem sortSearch_le_length (res : List WordSimilarity) (sim : ℚ) :
    sortSearch res sim ≤ res.length := by
  induction res with
  | nil => simp [sortSearch]
  | cons r rest ih =>
    simp only [sortSearch, List.length_cons]
    split
    · omega
    · omega

theorem sortSearch_take (res : List WordSimilarity) (sim : ℚ) :
    ∀ a ∈ res.take (sortSearch res sim), sim < a.Similarity := by
  induction res with
  | nil => simp
  | cons r rest ih =>
    simp only [sortSearch]
    split
    · simp
    · intro a ha
      rw [List.take_succ_cons] at ha
      rcases List.mem_cons.mp ha with h | h
      · subst h; exact not_le.mp (by assumption)
      · exact ih a h

theorem sortSearch_drop (res : List WordSimilarity) (sim : ℚ)
    (hs : sortedDesc res) :
    ∀ a ∈ res.drop (sortSearch res sim), a.Similarity ≤ sim := by
  induction res with
  | nil => simp
  | cons r rest ih =>
    simp only [sortSearch]
    split
    · intro a ha
      rw [List.drop_zero] at ha
      rcases List.mem_cons.mp ha with h | h
      · subst h; assumption
      · exact le_trans ((List.pairwise_cons.mp hs).1 a h) (by assumption)
    · intro a ha
      rw [List.drop_succ_cons] at ha
      exact ih ((List.pairwise_cons.mp hs).2) a ha

theorem insertWithLimit_lt (slice : List WordSimilarity) (limit : ℤ) (ip : ℕ)
    (v : WordSimilarity) (h : (slice.length : ℤ) < limit) (hip : ip ≤ slice.length) :
    insertWithLimit slice limit ip v = slice.take ip ++ v :: slice.drop ip := by
  unfold insertWithLimit
  simp only [if_pos h]
  rw [List.take_append_of_le_length hip, List.drop_append_of_le_length hip]
  congr 1
  congr 1
  have hlen : (slice ++ [(⟨"", 0⟩ : WordSimilarity)]).length = slice.length + 1 := by
    simp
  rw [hlen]
  have : slice.length + 1 - 1 - ip = (slice.drop ip).length := by
    rw [List.length_drop]; omega
  rw [this, List.take_left']
  rfl

theorem insertWithLimit_ge (slice : List WordSimilarity) (limit : ℤ) (ip : ℕ)
    (v : WordSimilarity) (h : ¬ (slice.length : ℤ) < limit) :
    insertWithLimit slice limit ip v
      = slice.take ip ++ v :: (slice.drop ip).take (slice.length - 1 - ip) := by
  unfold insertWithLimit
  simp only [if_neg h]

theorem length_insertWithLimit_lt (slice : List WordSimilarity) (limit : ℤ)
    (ip : ℕ) (v : WordSimilarity) (h : (slice.length : ℤ) < limit)
    (hip : ip ≤ slice.length) :
    (insertWithLimit slice limit ip v).length = slice.length + 1 := by
  rw [insertWithLimit_lt slice limit ip v h hip]
  simp only [List.length_append, List.length_cons, List.length_take, List.length_drop]
  omega

theorem length_insertWithLimit_ge (slice : List WordSimilarity) (limit : ℤ)
    (ip : ℕ) (v : WordSimilarity) (h : ¬ (slice.length : ℤ) < limit)
    (hip : ip < slice.length) :
    (insertWithLimit slice limit ip v).length = slice.length := by
  rw [insertWithLimit_ge slice limit ip v h]
  simp only [List.length_append, List.length_cons, List.length_take, List.length_drop]
  omega

theorem mem_insertWithLimit (slice : List WordSimilarity) (limit : ℤ) (ip : ℕ)
    (v : WordSimilarity) (hip : ip ≤ slice.length) (a : WordSimilarity)
    (ha : a ∈ insertWithLimit slice limit ip v) : a = v ∨ a ∈ slice := by
  by_cases h : (slice.length : ℤ) < limit
  · rw [insertWithLimit_lt slice limit ip v h hip] at ha
    rcases List.mem_append.mp ha with h1 | h1
    · exact Or.inr (List.take_subset ip slice h1)
    · rcases List.mem_cons.mp h1 with h2 | h2
      · exact Or.inl h2
      · exact Or.inr (List.drop_subset ip slice h2)
  · rw [insertWithLimit_ge slice limit ip v h] at ha
    rcases List.mem_append.mp ha with h1 | h1
    · exact Or.inr (List.take_subset ip slice h1)
    · rcases List.mem_cons.mp h1 with h2 | h2
      · exact Or.inl h2
      · exact Or.inr (List.drop_subset ip slice
          (List.take_subset (slice.length - 1 - ip) (slice.drop ip) h2))

theorem sortedDesc_mid (slice : List WordSimilarity) (ip : ℕ) (sim : ℚ)
    (v : WordSimilarity) (B : List WordSimilarity) (hs : sortedDesc slice)
    (hB : List.Sublist B (slice.drop ip)) (hv : v.Similarity = sim)
    (h1 : ∀ a ∈ slice.take ip, sim < a.Similarity)
    (h2 : ∀ a ∈ slice.drop ip, a.Similarity ≤ sim) :
    sortedDesc (slice.take ip ++ v :: B) := by
  have hsplit : sortedDesc (slice.take ip ++ slice.drop ip) := by
    rw [List.take_append_drop]; exact hs
  have hcross := (List.pairwise_append.mp hsplit).2.2
  apply List.pairwise_append.mpr
  refine ⟨hs.sublist (List.take_sublist ip slice), ?_, ?_⟩
  · apply List.pairwise_cons.mpr
    refine ⟨?_, ?_⟩
    · intro b hb
      rw [hv]
      exact h2 b (hB.subset hb)
    · exact hs.sublist (hB.trans (List.drop_sublist ip slice))
  · intro a ha b hb
    rcases List.mem_cons.mp hb with h3 | h3
    · subst h3
      rw [hv]
      exact le_of_lt (h1 a ha)
    · exact hcross a ha b (hB.subset h3)

theorem sortedDesc_insertWithLimit (slice : List WordSimilarity) (limit : ℤ)
    (ip : ℕ) (sim : ℚ) (v : WordSimilarity) (hs : sortedDesc slice)
    (hip : ip ≤ slice.length) (hv : v.Similarity = sim)
    (h1 : ∀ a ∈ slice.take ip, sim < a.Similarity)
    (h2 : ∀ a ∈ slice.drop ip, a.Similarity ≤ sim) :
    sortedDesc (insertWithLimit slice limit ip v) := by
  by_cases h : (slice.length : ℤ) < limit
  · rw [insertWithLimit_lt slice limit ip v h hip]
    exact sortedDesc_mid slice ip sim v (slice.drop ip) hs
      (List.Sublist.refl (slice.drop ip)) hv h1 h2
  · rw [insertWithLimit_ge slice limit ip v h]
    exact sortedDesc_mid slice ip sim v ((slice.drop ip).take (slice.length - 1 - ip)) hs
      (List.take_sublist (slice.length - 1 - ip) (slice.drop ip)) hv h1 h2

theorem sortedDesc_simStep (e : Embeddings) (embed : List ℚ) (skips : List ℕ)
    (limit : ℤ) (res : List WordSimilarity) (idx : ℕ) (hs : sortedDesc res) :
    sortedDesc (simStep e embed skips limit res idx) := by
  unfold simStep
  split
  · exact hs
  · dsimp only
    split
    · exact sortedDesc_insertWithLimit res limit _ _ _ hs
        (sortSearch_le_length res _) rfl (sortSearch_take res _) (sortSearch_drop res _ hs)
    · exact hs

theorem sortedDesc_simFold (e : Embeddings) (embed : List ℚ) (skips : List ℕ)
    (limit : ℤ) (idxs : List ℕ) (res : List WordSimilarity) (hs : sortedDesc res) :
    sortedDesc (idxs.foldl (simStep e embed skips limit) res) := by
  induction idxs generalizing res with
  | nil => exact hs
  | cons i rest ih =>
    exact ih (simStep e embed skips limit res i) (sortedDesc_simStep e embed skips limit res i hs)

theorem length_simStep (e : Embeddings) (embed : List ℚ) (skips : List ℕ)
    (limit : ℤ) (res : List WordSimilarity) (idx : ℕ)
    (hlen : res.length ≤ limit.toNat) :
    (simStep e embed skips limit res idx).length
      = if idx ∈ skips then res.length else min limit.toNat (res.length + 1) := by
  unfold simStep
  by_cases hsk : idx ∈ skips
  · rw [if_pos hsk, if_pos hsk]
  · rw [if_neg hsk, if_neg hsk]
    have hss := sortSearch_le_length res (dotProduct embed (e.lookupIdx idx))
    dsimp only
    split
    · by_cases hlt : (res.length : ℤ) < limit
      · rw [length_insertWithLimit_lt res limit _ _ hlt hss]
        omega
      · have hip : sortSearch res (dotProduct embed (e.lookupIdx idx)) < res.length := by
          omega
        rw [length_insertWithLimit_ge res limit _ _ hlt hip]
        omega
    · omega

theorem length_simFold (e : Embeddings) (embed : List ℚ) (skips : List ℕ)
    (limit : ℤ) (idxs : List ℕ) (res : List WordSimilarity)
    (hlen : res.length ≤ limit.toNat) :
    (idxs.foldl (simStep e embed skips limit) res).length
      = min limit.toNat (res.length + (idxs.filter (fun i => decide (i ∉ skips))).length) := by
  induction idxs generalizing res with
  | nil => simp; omega
  | cons i rest ih =>
    have hstep := length_simStep e embed skips limit res i hlen
    by_cases hsk : i ∈ skips
    · rw [if_pos hsk] at hstep
      have hfilter : ((i :: rest).filter (fun j => decide (j ∉ skips)))
          = rest.filter (fun j => decide (j ∉ skips)) := by
        simp [List.filter_cons, hsk]
      rw [List.foldl_cons, hfilter, ih (simStep e embed skips limit res i) (by omega)]
      omega
    · rw [if_neg hsk] at hstep
      have hfilter : ((i :: rest).filter (fun j => decide (j ∉ skips)))
          = i :: rest.filter (fun j => decide (j ∉ skips)) := by
        simp [List.filter_cons, hsk]
      rw [List.foldl_cons, hfilter, ih (simStep e embed skips limit res i) (by omega)]
      simp only [List.length_cons]
      omega

theorem mem_simStep (e : Embeddings) (embed : List ℚ) (skips : List ℕ)
    (limit : ℤ) (res : List WordSimilarity) (idx : ℕ) (r : WordSimilarity)
    (hr : r ∈ simStep e embed skips limit res idx) :
    r ∈ res ∨ (idx ∉ skips ∧ r.Word = e.words.getD idx "") := by
  unfold simStep at hr
  by_cases hsk : idx ∈ skips
  · rw [if_pos hsk] at hr
    exact Or.inl hr
  · rw [if_neg hsk] at hr
    dsimp only at hr
    split at hr
    · rcases mem_insertWithLimit res limit _ _ (sortSearch_le_length res _) r hr with h | h
      · subst h
        exact Or.inr ⟨hsk, rfl⟩
      · exact Or.inl h
    · exact Or.inl hr

theorem mem_simFold (e : Embeddings) (embed : List ℚ) (skips : List ℕ)
    (limit : ℤ) (idxs : List ℕ) (res : List WordSimilarity) (r : WordSimilarity)
    (hr : r ∈ idxs.foldl (simStep e embed skips limit) res) :
    r ∈ res ∨ ∃ idx ∈ idxs, idx ∉ skips ∧ r.Word = e.words.getD idx "" := by
  induction idxs generalizing res with
  | nil => exact Or.inl hr
  | cons i rest ih =>
    rw [List.foldl_cons] at hr
    rcases ih (simStep e embed skips limit res i) hr with h | h
    · rcases mem_simStep e embed skips limit res i r h with h2 | h2
      · exact Or.inl h2
      · exact Or.inr ⟨i, List.mem_cons_self i rest, h2⟩
    · rcases h with ⟨idx, hidx, h3⟩
      exact Or.inr ⟨idx, List.mem_cons_of_mem i hidx, h3⟩

/-- C1: for every store and every Similarity or Analogy query with limit K,
the result list has length `min(K, number of non-excluded rows)` — in
particular it is empty when K ≤ 0, and shorter than K with no padding or
error when fewer eligible candidates exist — and the scores are
non-increasing from the first entry to the last. -/
theorem topk_bound_and_order :
    (∀ (e : Embeddings) (word : String) (limit : ℤ) (idx : ℕ)
      (res : List WordSimilarity),
      mapLookup e.indices word = some idx →
      e.Similarity word limit = Except.ok res →
      res.length = min limit.toNat (eligibleCount e [idx]) ∧ sortedDesc res)
  ∧ (∀ (e : Embeddings) (a b c : String) (limit : ℤ) (i1 i2 i3 : ℕ)
      (res : List WordSimilarity),
      mapLookup e.indices a = some i1 → mapLookup e.indices b = some i2 →
      mapLookup e.indices c = some i3 →
      e.Analogy a b c limit = Except.ok res →
      res.length = min limit.toNat (eligibleCount e [i1, i2, i3]) ∧ sortedDesc res) := by
  constructor
  · intro e word limit idx res hlook hok
    unfold Embeddings.Similarity at hok
    rw [hlook] at hok
    unfold Embeddings.similarity at hok
    have hres := Except.ok.inj hok
    subst hres
    constructor
    · rw [length_simFold e _ [idx] limit (List.range e.Size) [] (by simp)]
      simp [eligibleCount]
    · exact sortedDesc_simFold e _ [idx] limit (List.range e.Size) [] List.Pairwise.nil
  · intro e a b c limit i1 i2 i3 res h1 h2 h3 hok
    unfold Embeddings.Analogy at hok
    rw [h1, h2, h3] at hok
    unfold Embeddings.similarity at hok
    have hres := Except.ok.inj hok
    subst hres
    constructor
    · rw [length_simFold e _ [i1, i2, i3] limit (List.range e.Size) [] (by simp)]
      simp [eligibleCount]
    · exact sortedDesc_simFold e _ [i1, i2, i3] limit (List.range e.Size) [] List.Pairwise.nil

theorem sortSearch_min (res : List WordSimilarity) (sim : ℚ) :
    ∀ j, j < res.length → (res.getD j ⟨"", 0⟩).Similarity ≤ sim →
      sortSearch res sim ≤ j := by
  induction res with
  | nil => simp
  | cons r rest ih =>
    intro j hj hle
    simp only [sortSearch]
    split
    · omega
    · match j with
      | 0 =>
        simp only [List.getD_cons_zero] at hle
        exact absurd hle (by assumption)
      | j + 1 =>
        simp only [List.getD_cons_succ] at hle
        have := ih j (by simpa using hj) hle
        omega

/-- Witness for the top-K bound-and-order theorem: the apple query on the
concrete three-word store, with limit 2 and one excluded row. -/
theorem topk_bound_and_order_witness :
    demoStore.Similarity "apple" 2
      = Except.ok [⟨"pear", 0.8⟩, ⟨"banana", 0.2⟩] ∧
    ([(⟨"pear", 0.8⟩ : WordSimilarity), ⟨"banana", 0.2⟩].length
        = min (2 : ℤ).toNat (eligibleCount demoStore [0]) ∧
      sortedDesc [⟨"pear", 0.8⟩, ⟨"banana", 0.2⟩]) :=
  ⟨by with_unfolding_all decide,
   topk_bound_and_order.1 demoStore "apple" 2 0 [⟨"pear", 0.8⟩, ⟨"banana", 0.2⟩]
     (by with_unfolding_all decide) (by with_unfolding_all decide)⟩

/-- C2: the concrete store built with embedding size 2 by Put("apple",[1,0]),
Put("pear",[0.8,0.1]), Put("banana",[0.2,1]) (no normalization): every Put
succeeds and Similarity("apple", 2) returns exactly
[("pear", 0.8), ("banana", 0.2)] in that order. -/
theorem concrete_scenario :
    ((NewEmbeddings 2).Put "apple" [1, 0]).2 = none ∧
    (((NewEmbeddings 2).Put "apple" [1, 0]).1.Put "pear" [0.8, 0.1]).2 = none ∧
    ((((NewEmbeddings 2).Put "apple" [1, 0]).1.Put "pear" [0.8, 0.1]).1.Put
      "banana" [0.2, 1]).2 = none ∧
    demoStore.Similarity "apple" 2
      = Except.ok [⟨"pear", 0.8⟩, ⟨"banana", 0.2⟩] := by
  with_unfolding_all decide

/-- C3 counterexample: in `tieStore`, rows 1 ("a") and 2 ("b") have equal
scores against the query "q", yet Similarity("q", 2) places the later row
"b" first, and with the list full at K = 1 the later equal-score row
displaces the earlier one — refuting first-seen-wins tie-breaking. -/
theorem tie_first_seen_cex :
    tieStore.words = ["q", "a", "b"] ∧
    dotProduct (tieStore.lookupIdx 0) (tieStore.lookupIdx 1)
      = dotProduct (tieStore.lookupIdx 0) (tieStore.lookupIdx 2) ∧
    tieStore.Similarity "q" 2 = Except.ok [⟨"b", 1⟩, ⟨"a", 1⟩] ∧
    tieStore.Similarity "q" 1 = Except.ok [⟨"b", 1⟩] := by
  with_unfolding_all decide

/-- C3 amended: tie-breaking is last-seen-wins.  The insertion search places
a candidate before every existing entry whose score is at most — in
particular, equal to — its own, and when the list is full at the limit with
the last entry's score equal to the candidate's, the candidate is still
inserted (the list's last entry is discarded, the length stays at the
limit). -/
theorem tie_later_seen_wins :
    (∀ (res : List WordSimilarity) (sim : ℚ) (j : ℕ), j < res.length →
      (res.getD j ⟨"", 0⟩).Similarity ≤ sim → sortSearch res sim ≤ j)
  ∧ (∀ (e : Embeddings) (embed : List ℚ) (skips : List ℕ) (limit : ℤ)
      (res : List WordSimilarity) (idx : ℕ),
      idx ∉ skips → (res.length : ℤ) = limit → 0 < limit →
      (res.getD (res.length - 1) ⟨"", 0⟩).Similarity
        = dotProduct embed (e.lookupIdx idx) →
      simStep e embed skips limit res idx
          = insertWithLimit res limit
              (sortSearch res (dotProduct embed (e.lookupIdx idx)))
              ⟨e.words.getD idx "", dotProduct embed (e.lookupIdx idx)⟩
        ∧ (simStep e embed skips limit res idx).length = res.length) := by
  constructor
  · exact sortSearch_min
  · intro e embed skips limit res idx hsk hfull hpos hlast
    have hlen0 : 0 < res.length := by omega
    have hip : sortSearch res (dotProduct embed (e.lookupIdx idx)) ≤ res.length - 1 :=
      sortSearch_min res (dotProduct embed (e.lookupIdx idx)) (res.length - 1)
        (by omega) (le_of_eq hlast)
    have hins : ((sortSearch res (dotProduct embed (e.lookupIdx idx)) : ℕ) : ℤ) < limit := by
      omega
    have hstep : simStep e embed skips limit res idx
        = insertWithLimit res limit
            (sortSearch res (dotProduct embed (e.lookupIdx idx)))
            ⟨e.words.getD idx "", dotProduct embed (e.lookupIdx idx)⟩ := by
      unfold simStep
      rw [if_neg hsk]
      dsimp only
      rw [if_pos hins]
    refine ⟨hstep, ?_⟩
    rw [hstep]
    exact length_insertWithLimit_ge res limit _ _ (by omega) (by omega)

/-- Witness for the last-seen-wins theorem: concrete insertion positions and
the displacement step on the tie store, full at limit 1. -/
theorem tie_later_seen_wins_witness :
    sortSearch [⟨"a", 1⟩] 1 ≤ 0 ∧
    (simStep tieStore (tieStore.lookupIdx 0) [0] 1 [⟨"a", 1⟩] 2
        = insertWithLimit [⟨"a", 1⟩] 1
            (sortSearch [⟨"a", 1⟩]
              (dotProduct (tieStore.lookupIdx 0) (tieStore.lookupIdx 2)))
            ⟨tieStore.words.getD 2 "",
              dotProduct (tieStore.lookupIdx 0) (tieStore.lookupIdx 2)⟩
      ∧ (simStep tieStore (tieStore.lookupIdx 0) [0] 1 [⟨"a", 1⟩] 2).length
          = ([(⟨"a", 1⟩ : WordSimilarity)]).length) := by
  constructor
  · exact tie_later_seen_wins.1 [⟨"a", 1⟩] 1 0 (by decide) (by with_unfolding_all decide)
  · exact tie_later_seen_wins.2 tieStore (tieStore.lookupIdx 0) [0] 1
      [⟨"a", 1⟩] 2 (by decide) (by decide) (by decide)
      (by with_unfolding_all decide)

theorem length_copyAt (m : List ℚ) (start : ℕ) (src : List ℚ) :
    (copyAt m start src).length = m.length := by
  simp only [copyAt, List.length_append, List.length_take, List.length_drop]
  omega

/-- C7: Put with a wrong-length embedding returns the dimension-mismatch
error naming both sizes and returns the store unchanged; Put preserves the
row-shape equation `len(matrix) = len(words) * embedSize`, and under it every
stored row has exactly EmbeddingSize() components. -/
theorem put_dimension_mismatch :
    (∀ (e : Embeddings) (word : String) (v : List ℚ), v.length ≠ e.embedSize →
      e.Put word v = (e, some ("Expected embedding size: " ++ toString e.embedSize
        ++ ", got: " ++ toString v.length)))
  ∧ (∀ (e : Embeddings) (word : String) (v : List ℚ),
      e.matrix.length = e.words.length * e.embedSize →
      (e.Put word v).1.matrix.length
        = (e.Put word v).1.words.length * (e.Put word v).1.embedSize)
  ∧ (∀ (e : Embeddings), e.matrix.length = e.words.length * e.embedSize →
      ∀ i, i < e.words.length → (e.lookupIdx i).length = e.embedSize) := by
  refine ⟨?_, ?_, ?_⟩
  · intro e word v h
    unfold Embeddings.Put
    rw [if_pos h]
  · intro e word v hm
    unfold Embeddings.Put
    by_cases h : v.length ≠ e.embedSize
    · rw [if_pos h]
      exact hm
    · rw [if_neg h]
      push_neg at h
      cases hl : mapLookup e.indices word with
      | some idx =>
        simp only [length_copyAt]
        exact hm
      | none =>
        simp only [List.length_append, List.length_singleton]
        rw [hm, h, Nat.add_mul, Nat.one_mul]
  · intro e hm i hi
    unfold Embeddings.lookupIdx
    rw [List.length_take, List.length_drop, hm]
    have hmul : (i + 1) * e.embedSize ≤ e.words.length * e.embedSize :=
      Nat.mul_le_mul_right e.embedSize (by omega)
    rw [Nat.add_mul, one_mul] at hmul
    omega

/-- Witness for the Put dimension theorem: a length-1 vector against the
size-2 concrete store is rejected and the store is unchanged; the row-shape
equation holds after a successful Put and gives full-length rows. -/
theorem put_dimension_mismatch_witness :
    demoStore.Put "x" [1] = (demoStore, some ("Expected embedding size: "
        ++ toString demoStore.embedSize ++ ", got: " ++ toString ([(1 : ℚ)]).length)) ∧
    (demoStore.Put "x" [5, 6]).1.matrix.length
      = (demoStore.Put "x" [5, 6]).1.words.length * (demoStore.Put "x" [5, 6]).1.embedSize ∧
    (demoStore.lookupIdx 1).length = demoStore.embedSize :=
  ⟨put_dimension_mismatch.1 demoStore "x" [1] (by with_unfolding_all decide),
   put_dimension_mismatch.2.1 demoStore "x" [5, 6] (by with_unfolding_all decide),
   put_dimension_mismatch.2.2 demoStore (by with_unfolding_all decide) 1
     (by with_unfolding_all decide)⟩

/-- C8: Similarity on an absent word fails with the unknown-word error
naming it, and Analogy with any absent input word fails with the
unknown-word error naming the first missing one of wordA, wordB, wordC; no
result list is produced (and the queries never touch the store's state:
their model is a pure function of the store). -/
theorem unknown_word_errors :
    (∀ (e : Embeddings) (w : String) (limit : ℤ), mapLookup e.indices w = none →
      e.Similarity w limit = Except.error ("Unknown word: " ++ w))
  ∧ (∀ (e : Embeddings) (a b c : String) (limit : ℤ), mapLookup e.indices a = none →
      e.Analogy a b c limit = Except.error ("Unknown word: " ++ a))
  ∧ (∀ (e : Embeddings) (a b c : String) (limit : ℤ) (i1 : ℕ),
      mapLookup e.indices a = some i1 → mapLookup e.indices b = none →
      e.Analogy a b c limit = Except.error ("Unknown word: " ++ b))
  ∧ (∀ (e : Embeddings) (a b c : String) (limit : ℤ) (i1 i2 : ℕ),
      mapLookup e.indices a = some i1 → mapLookup e.indices b = some i2 →
      mapLookup e.indices c = none →
      e.Analogy a b c limit = Except.error ("Unknown word: " ++ c)) := by
  refine ⟨?_, ?_, ?_, ?_⟩
  · intro e w limit h
    unfold Embeddings.Similarity
    rw [h]
  · intro e a b c limit h
    unfold Embeddings.Analogy
    rw [h]
  · intro e a b c limit i1 h1 h2
    unfold Embeddings.Analogy
    rw [h1, h2]
  · intro e a b c limit i1 i2 h1 h2 h3
    unfold Embeddings.Analogy
    rw [h1, h2, h3]

/-- Witness for the unknown-word theorem: queries naming the absent word
"durian" against the concrete store fail with the error naming it. -/
theorem unknown_word_errors_witness :
    demoStore.Similarity "durian" 5 = Except.error ("Unknown word: " ++ "durian") ∧
    demoStore.Analogy "durian" "pear" "banana" 5
      = Except.error ("Unknown word: " ++ "durian") ∧
    demoStore.Analogy "apple" "durian" "banana" 5
      = Except.error ("Unknown word: " ++ "durian") ∧
    demoStore.Analogy "apple" "pear" "durian" 5
      = Except.error ("Unknown word: " ++ "durian") :=
  ⟨unknown_word_errors.1 demoStore "durian" 5 (by with_unfolding_all decide),
   unknown_word_errors.2.1 demoStore "durian" "pear" "banana" 5
     (by with_unfolding_all decide),
   unknown_word_errors.2.2.1 demoStore "apple" "durian" "banana" 5 0
     (by with_unfolding_all decide) (by with_unfolding_all decide),
   unknown_word_errors.2.2.2 demoStore "apple" "pear" "durian" 5 0 1
     (by with_unfolding_all decide) (by with_unfolding_all decide)
     (by with_unfolding_all decide)⟩

/-- C4 counterexample: loading a well-formed stream in which the word "a"
occurs in two records produces a store (word list ["a", "a"], index map
{"a" ↦ 1}) on which Similarity("a", 1) succeeds and returns the query word
"a" itself — the excluded row index 1 does not cover row 0, which also
carries "a". -/
theorem self_exclusion_cex :
    ReadWord2VecBinary dupStream false
      = Except.ok ⟨[1, 1], 1, [("a", 1)], ["a", "a"]⟩ ∧
    (Embeddings.mk [1, 1] 1 [("a", 1)] ["a", "a"]).Similarity "a" 1
      = Except.ok [⟨"a", 1⟩] := by
  with_unfolding_all decide

/-- C4 amended: on every store satisfying the store shape invariant (each
row's word maps back to that row and words are pairwise distinct — true of
every store built by construction and Put, or loaded from a stream with
pairwise-distinct words), Similarity(word, K) never returns `word` and
Analogy(a, b, c, K) never returns a, b, or c. -/
theorem self_exclusion :
    (∀ (e : Embeddings), StoreInv e →
      ∀ (w : String) (limit : ℤ) (res : List WordSimilarity),
      e.Similarity w limit = Except.ok res → ∀ r ∈ res, r.Word ≠ w)
  ∧ (∀ (e : Embeddings), StoreInv e →
      ∀ (a b c : String) (limit : ℤ) (res : List WordSimilarity),
      e.Analogy a b c limit = Except.ok res →
      ∀ r ∈ res, r.Word ≠ a ∧ r.Word ≠ b ∧ r.Word ≠ c) := by
  constructor
  · intro e hInv w limit res hok r hr heq
    unfold Embeddings.Similarity at hok
    cases hl : mapLookup e.indices w with
    | none => rw [hl] at hok; exact Except.noConfusion hok
    | some idx =>
      rw [hl] at hok
      unfold Embeddings.similarity at hok
      have hres := Except.ok.inj hok
      subst hres
      rcases mem_simFold e _ [idx] limit (List.range e.Size) [] r hr with h | h
      · exact absurd h (List.not_mem_nil r)
      · rcases h with ⟨idx0, hidx0, hnotin, hword⟩
        have hlt : idx0 < e.words.length := by
          have := List.mem_range.mp hidx0
          have hlen := hInv.1
          unfold Embeddings.Size at this
          omega
        have hget := hInv.2.2.2.2 idx0 hlt
        rw [hword.symm, heq, hl] at hget
        have : idx = idx0 := Option.some.inj hget
        subst this
        exact hnotin (List.mem_singleton.mpr rfl)
  · intro e hInv a b c limit res hok r hr
    unfold Embeddings.Analogy at hok
    cases h1 : mapLookup e.indices a with
    | none => rw [h1] at hok; exact Except.noConfusion hok
    | some i1 =>
    cases h2 : mapLookup e.indices b with
    | none => rw [h1, h2] at hok; exact Except.noConfusion hok
    | some i2 =>
    cases h3 : mapLookup e.indices c with
    | none => rw [h1, h2, h3] at hok; exact Except.noConfusion hok
    | some i3 =>
      rw [h1, h2, h3] at hok
      unfold Embeddings.similarity at hok
      have hres := Except.ok.inj hok
      subst hres
      rcases mem_simFold e _ [i1, i2, i3] limit (List.range e.Size) [] r hr with h | h
      · exact absurd h (List.not_mem_nil r)
      · rcases h with ⟨idx0, hidx0, hnotin, hword⟩
        have hlt : idx0 < e.words.length := by
          have := List.mem_range.mp hidx0
          have hlen := hInv.1
          unfold Embeddings.Size at this
          omega
        have hget := hInv.2.2.2.2 idx0 hlt
        rw [hword.symm] at hget
        refine ⟨?_, ?_, ?_⟩
        · intro heq
          rw [heq, h1] at hget
          have : i1 = idx0 := Option.some.inj hget
          subst this
          exact hnotin (by simp)
        · intro heq
          rw [heq, h2] at hget
          have : i2 = idx0 := Option.some.inj hget
          subst this
          exact hnotin (by simp)
        · intro heq
          rw [heq, h3] at hget
          have : i3 = idx0 := Option.some.inj hget
          subst this
          exact hnotin (by simp)

/-- Witness for the self-exclusion theorem: on the concrete store the apple
similarity result and an analogy result exclude the query words. -/
theorem self_exclusion_witness :
    (∀ r ∈ [(⟨"pear", 0.8⟩ : WordSimilarity), ⟨"banana", 0.2⟩], r.Word ≠ "apple") ∧
    (∀ r ∈ [(⟨"cherry", (0.55 : ℚ)⟩ : WordSimilarity)],
      r.Word ≠ "apple" ∧ r.Word ≠ "pear" ∧ r.Word ≠ "banana") :=
  ⟨self_exclusion.1 demoStore (by with_unfolding_all decide) "apple" 2
      [⟨"pear", 0.8⟩, ⟨"banana", 0.2⟩] (by with_unfolding_all decide),
   self_exclusion.2 (demoStore.Put "cherry" [0.5, 0.5]).1
      (by with_unfolding_all decide) "apple" "pear" "banana" 5
      [⟨"cherry", (0.55 : ℚ)⟩] (by with_unfolding_all decide)⟩

/-- C10: loading a well-formed stream that contains an all-zero vector with
normalize = true does not return an error; the normalization divides the
zero row by its zero Euclidean norm, so that row is stored as NaN (0/0)
components rather than the load being rejected — while the nonzero row is
normalized to unit length as usual. -/
theorem zero_vector_normalize_nan :
    ReadWord2VecBinaryF c10Stream true
      = Except.ok ⟨[F.fin (3 / 5), F.fin (4 / 5), F.nan, F.nan], 2,
          [("b", 0), ("z", 1)], ["b", "z"]⟩ ∧
    (EmbeddingsF.mk [F.fin (3 / 5), F.fin (4 / 5), F.nan, F.nan] 2
        [("b", 0), ("z", 1)] ["b", "z"]).lookupIdx 1 = [F.nan, F.nan] := by
  with_unfolding_all decide

theorem writeRecords_eq_foldr (e : Embeddings) :
    ∀ (ws : List String) (i : ℕ), ws = e.words.drop i →
    writeRecords e ws i
      = (List.range' i ws.length).foldr
          (fun j acc => (e.words.getD j "").data.map BItem.chr
            ++ BItem.chr ' ' :: ((e.lookupIdx j).map BItem.f32 ++ acc)) [] := by
  intro ws
  induction ws with
  | nil => intro i _; rfl
  | cons w ws ih =>
    intro i h
    have hw : e.words.getD i "" = w := by
      have h0 : (e.words.drop i).getD 0 "" = w := by rw [← h]; rfl
      rw [← h0]
      simp [List.getD_eq_getElem?_getD, List.getElem?_drop]
    have htail : ws = e.words.drop (i + 1) := by
      have := congrArg List.tail h
      simpa [List.tail_drop] using this
    simp only [writeRecords, List.length_cons]
    rw [List.range'_succ i ws.length 1, List.foldr_cons, ih (i + 1) htail, hw]

/-- C6: for every store, Write produces exactly the header followed by the
word records in `word_at_index` (insertion) row order 0..N-1 — the stream is
the same function of the store's contents as the spec's insertion-ordered
serialization, hence uniquely determined by them — and Write emits nothing
when the store has zero words or embedding size 0. -/
theorem write_insertion_order (e : Embeddings) :
    e.Write = writeSpecOrdered e ∧
    ((e.words = [] ∨ e.embedSize = 0) → e.Write = []) := by
  have hmain : e.Write = writeSpecOrdered e := by
    unfold Embeddings.Write writeSpecOrdered
    by_cases h1 : e.words.length = 0
    · rw [if_pos h1, if_pos (Or.inl (List.length_eq_zero.mp h1))]
    · rw [if_neg h1]
      by_cases h2 : e.embedSize = 0
      · rw [if_pos h2, if_pos (Or.inr h2)]
      · have hor : ¬ (e.words = [] ∨ e.embedSize = 0) := by
          push_neg
          exact ⟨fun hc => h1 (by rw [hc]; rfl), h2⟩
        rw [if_neg h2, if_neg hor]
        rw [writeRecords_eq_foldr e e.words 0 (by simp), List.range_eq_range' e.words.length]
  refine ⟨hmain, fun h => ?_⟩
  rw [hmain]
  unfold writeSpecOrdered
  rw [if_pos h]

/-- Witness for the write-order theorem: the concrete store's stream equals
the insertion-ordered serialization, and a fresh empty store writes
nothing. -/
theorem write_insertion_order_witness :
    demoStore.Write = writeSpecOrdered demoStore ∧
    (NewEmbeddings 7).Write = [] :=
  ⟨(write_insertion_order demoStore).1,
   (write_insertion_order (NewEmbeddings 7)).2 (Or.inl rfl)⟩

theorem takeWhile_append_stop {α : Type} (p : α → Bool) (l1 l2 : List α)
    (h1 : ∀ a ∈ l1, p a = true) (b : α) (hb : p b = false) :
    (l1 ++ b :: l2).takeWhile p = l1 := by
  induction l1 with
  | nil => simp [List.takeWhile_cons, hb]
  | cons x xs ih =>
    have hx : p x = true := h1 x (by simp)
    simp only [List.cons_append, List.takeWhile_cons, hx, if_true]
    rw [ih (fun a ha => h1 a (by simp [ha]))]

theorem dropWhile_append_stop {α : Type} (p : α → Bool) (l1 l2 : List α)
    (h1 : ∀ a ∈ l1, p a = true) (b : α) (hb : p b = false) :
    (l1 ++ b :: l2).dropWhile p = b :: l2 := by
  induction l1 with
  | nil => simp [List.dropWhile_cons, hb]
  | cons x xs ih =>
    have hx : p x = true := h1 x (by simp)
    simp only [List.cons_append, List.dropWhile_cons, hx, if_true]
    exact ih (fun a ha => h1 a (by simp [ha]))

theorem dropWhile_all_false {α : Type} (p : α → Bool) (l : List α)
    (h : ∀ a ∈ l, p a = false) : l.dropWhile p = l := by
  induction l with
  | nil => rfl
  | cons x xs ih =>
    rw [List.dropWhile_cons, if_neg (by simp [h x (by simp)])]

theorem dropWhile_all_true {α : Type} (p : α → Bool) (l : List α)
    (h : ∀ a ∈ l, p a = true) : l.dropWhile p = [] := by
  induction l with
  | nil => rfl
  | cons x xs ih =>
    simp only [List.dropWhile_cons, h x (by simp), if_true]
    exact ih (fun a ha => h a (by simp [ha]))

theorem digitChar_isDigit (d : ℕ) (hd : d < 10) : (digitChar d).isDigit = true := by
  interval_cases d <;> decide

theorem digitChar_toNat (d : ℕ) (hd : d < 10) : (digitChar d).toNat - 48 = d := by
  interval_cases d <;> decide

theorem isDigit_not_goSpace (c : Char) (h : c.isDigit = true) : goSpace c = false := by
  by_contra hg
  rw [Bool.not_eq_false] at hg
  unfold goSpace at hg
  simp only [Bool.or_eq_true, beq_iff_eq] at hg
  rcases hg with ((((h1 | h1) | h1) | h1) | h1) | h1 <;> subst h1 <;>
    exact absurd h (by decide)

theorem natChars_isDigit (n : ℕ) : ∀ c ∈ natChars n, c.isDigit = true := by
  unfold natChars
  split
  · intro c hc
    simp only [List.mem_singleton] at hc
    subst hc
    decide
  · intro c hc
    simp only [List.mem_map, List.mem_reverse] at hc
    obtain ⟨d, hd, rfl⟩ := hc
    exact digitChar_isDigit d (Nat.digits_lt_base (by omega) hd)

theorem natChars_ne_nil (n : ℕ) : natChars n ≠ [] := by
  unfold natChars
  split
  · simp
  · simp only [ne_eq, List.map_eq_nil_iff, List.reverse_eq_nil_iff]
    exact Nat.digits_ne_nil_iff_ne_zero.mpr (by assumption)

theorem foldl_digits (ds : List ℕ) (hds : ∀ d ∈ ds, d < 10) :
    natOfChars (ds.reverse.map digitChar) = Nat.ofDigits 10 ds := by
  induction ds with
  | nil => rfl
  | cons d t ih =>
    have hd : d < 10 := hds d (by simp)
    simp only [List.reverse_cons, List.map_append, List.map_cons, List.map_nil]
    unfold natOfChars
    rw [List.foldl_append]
    simp only [List.foldl_cons, List.foldl_nil]
    have ihv := ih (fun x hx => hds x (by simp [hx]))
    unfold natOfChars at ihv
    rw [ihv, Nat.ofDigits_cons]
    have := digitChar_toNat d hd
    omega

theorem natOfChars_natChars (n : ℕ) : natOfChars (natChars n) = n := by
  unfold natChars
  split
  · rename_i h
    subst h
    decide
  · rw [foldl_digits (Nat.digits 10 n) (fun d hd => Nat.digits_lt_base (by omega) hd),
      Nat.ofDigits_digits]

theorem filterMap_itemChar {α : Type} (cs : List Char) :
    (cs.map (BItem.chr : Char → BItem α)).filterMap itemChar = cs := by
  induction cs with
  | nil => rfl
  | cons c t ih =>
    simp only [List.map_cons, List.filterMap_cons, itemChar]
    rw [ih]

theorem scanNat_stream {α : Type} (sp cs : List Char) (b : Char)
    (rest : List (BItem α)) (hsp : ∀ c ∈ sp, goSpace c = true)
    (hcs : ∀ c ∈ cs, c.isDigit = true) (hne : cs ≠ []) (hb : b.isDigit = false) :
    scanNat (sp.map BItem.chr ++ (cs.map BItem.chr ++ BItem.chr b :: rest))
      = Except.ok (natOfChars cs, BItem.chr b :: rest) := by
  cases cs with
  | nil => exact absurd rfl hne
  | cons c0 cs' =>
    unfold scanNat
    have hdw : ((sp.map BItem.chr
        ++ ((c0 :: cs').map BItem.chr ++ BItem.chr b :: rest)).dropWhile isChrSpace)
        = (c0 :: cs').map BItem.chr ++ BItem.chr b :: rest := by
      have := dropWhile_append_stop isChrSpace (sp.map BItem.chr)
        (cs'.map BItem.chr ++ BItem.chr b :: rest)
        (by
          intro a ha
          simp only [List.mem_map] at ha
          obtain ⟨c, hc, rfl⟩ := ha
          exact hsp c hc)
        (BItem.chr c0)
        (by
          show goSpace c0 = false
          exact isDigit_not_goSpace c0 (hcs c0 (by simp)))
      simpa using this
    rw [hdw]
    have htw : (((c0 :: cs').map BItem.chr ++ BItem.chr b :: rest).takeWhile isChrDigit)
        = (c0 :: cs').map BItem.chr := by
      apply takeWhile_append_stop
      · intro a ha
        simp only [List.mem_map] at ha
        obtain ⟨c, hc, rfl⟩ := ha
        exact hcs c hc
      · exact hb
    have hdw2 : (((c0 :: cs').map BItem.chr ++ BItem.chr b :: rest).dropWhile isChrDigit)
        = BItem.chr b :: rest := by
      apply dropWhile_append_stop
      · intro a ha
        simp only [List.mem_map] at ha
        obtain ⟨c, hc, rfl⟩ := ha
        exact hcs c hc
      · exact hb
    dsimp only
    rw [htw, hdw2, filterMap_itemChar]
    rw [if_neg (by simp)]

theorem readToSpace_chrs {α : Type} (cs : List Char) (rest : List (BItem α))
    (h : ∀ c ∈ cs, c ≠ ' ') :
    readToSpace (cs.map BItem.chr ++ BItem.chr ' ' :: rest) = (cs ++ [' '], rest) := by
  induction cs with
  | nil => simp [readToSpace]
  | cons c t ih =>
    simp only [List.map_cons, List.cons_append, readToSpace, List.append_eq]
    rw [if_neg (h c (by simp)), ih (fun x hx => h x (by simp [hx]))]

theorem trimSpace_clean (lead w : List Char) (hlead : ∀ c ∈ lead, goSpace c = true)
    (hw : ∀ c ∈ w, goSpace c = false) : trimSpace (lead ++ (w ++ [' '])) = w := by
  unfold trimSpace
  cases w with
  | nil =>
    rw [dropWhile_all_true goSpace (lead ++ ([] ++ [' ']))
      (by
        intro a ha
        simp only [List.append_nil, List.nil_append, List.mem_append,
          List.mem_singleton] at ha
        rcases ha with h | h
        · exact hlead a h
        · subst h; decide)]
    rfl
  | cons c0 w' =>
    have h1 : (lead ++ ((c0 :: w') ++ [' '])).dropWhile goSpace
        = (c0 :: w') ++ [' '] := by
      have := dropWhile_append_stop goSpace lead (w' ++ [' ']) hlead c0
        (hw c0 (by simp))
      simpa using this
    rw [h1]
    have h2 : ((c0 :: w') ++ [' ']).reverse = ' ' :: (c0 :: w').reverse := by
      simp
    rw [h2]
    have h3 : (' ' :: (c0 :: w').reverse).dropWhile goSpace
        = ((c0 :: w').reverse).dropWhile goSpace := by
      rw [List.dropWhile_cons, if_pos (by decide)]
    rw [h3, dropWhile_all_false goSpace ((c0 :: w').reverse)
      (by
        intro a ha
        rw [List.mem_reverse] at ha
        exact hw a ha)]
    simp

theorem readFloats_exact {α : Type} (xs : List α) (rest : List (BItem α)) :
    readFloats xs.length (xs.map BItem.f32 ++ rest) = Except.ok (xs, rest) := by
  induction xs with
  | nil => rfl
  | cons x t ih =>
    simp only [List.length_cons, List.map_cons, List.cons_append, readFloats,
      List.append_eq]
    rw [ih]

theorem readRecords_writeRecords (e : Embeddings) :
    ∀ (ws : List String) (i : ℕ) (lead : List Char),
    (∀ c ∈ lead, goSpace c = true ∧ c ≠ ' ') →
    (∀ w ∈ ws, ∀ c ∈ w.data, goSpace c = false) →
    (i + ws.length) * e.embedSize ≤ e.matrix.length →
    readRecords e.embedSize ws.length (lead.map BItem.chr ++ writeRecords e ws i)
      = Except.ok (pairsOf e ws i) := by
  intro ws
  induction ws with
  | nil =>
    intro i lead _ _ _
    rfl
  | cons w ws ih =>
    intro i lead hlead hwords hmat
    have hrowlen : (e.lookupIdx i).length = e.embedSize := by
      unfold Embeddings.lookupIdx
      rw [List.length_take, List.length_drop]
      have hle : (i + 1) * e.embedSize ≤ e.matrix.length := by
        refine le_trans (Nat.mul_le_mul_right _ ?_) hmat
        simp only [List.length_cons]
        omega
      rw [Nat.add_mul, one_mul] at hle
      omega
    have hstream : lead.map BItem.chr ++ writeRecords e (w :: ws) i
        = (lead ++ w.data).map (BItem.chr : Char → BItem ℚ) ++ BItem.chr ' '
          :: ((e.lookupIdx i).map BItem.f32 ++ writeRecords e ws (i + 1)) := by
      simp [writeRecords, List.map_append]
    have hrts := readToSpace_chrs (lead ++ w.data)
      ((e.lookupIdx i).map BItem.f32 ++ writeRecords e ws (i + 1))
      (by
        intro c hc
        rcases List.mem_append.mp hc with h | h
        · exact (hlead c h).2
        · intro hceq
          subst hceq
          exact absurd (hwords w (by simp) ' ' h) (by decide))
    have htrim : trimSpace ((lead ++ w.data) ++ [' ']) = w.data := by
      rw [List.append_assoc]
      exact trimSpace_clean lead w.data (fun c hc => (hlead c hc).1)
        (hwords w (by simp))
    have hread : readFloats e.embedSize
        ((e.lookupIdx i).map BItem.f32 ++ writeRecords e ws (i + 1))
        = Except.ok (e.lookupIdx i, writeRecords e ws (i + 1)) := by
      rw [← hrowlen]
      exact readFloats_exact _ _
    have hih : readRecords e.embedSize ws.length (writeRecords e ws (i + 1))
        = Except.ok (pairsOf e ws (i + 1)) := by
      have := ih (i + 1) [] (by simp) (fun x hx => hwords x (by simp [hx]))
        (by
          rw [show i + 1 + ws.length = i + (ws.length + 1) by omega]
          simpa using hmat)
      simpa using this
    rw [hstream]
    show readRecords e.embedSize (ws.length + 1) _ = _
    unfold readRecords
    rw [hrts]
    dsimp only
    rw [htrim, hread]
    dsimp only
    rw [hih]
    rfl

theorem pairsOf_map_fst (e : Embeddings) :
    ∀ (ws : List String) (i : ℕ), (pairsOf e ws i).map Prod.fst = ws := by
  intro ws
  induction ws with
  | nil => intro i; rfl
  | cons w t ih =>
    intro i
    simp only [pairsOf, List.map_cons, ih (i + 1)]

theorem pairsOf_map_snd_flatten (e : Embeddings) :
    ∀ (ws : List String) (i : ℕ),
    ((pairsOf e ws i).map Prod.snd).flatten
      = (e.matrix.drop (i * e.embedSize)).take (ws.length * e.embedSize) := by
  intro ws
  induction ws with
  | nil =>
    intro i
    simp [pairsOf]
  | cons w t ih =>
    intro i
    simp only [pairsOf, List.map_cons, List.flatten_cons, List.length_cons]
    rw [ih (i + 1)]
    unfold Embeddings.lookupIdx
    rw [show (t.length + 1) * e.embedSize = e.embedSize + t.length * e.embedSize by
      rw [Nat.add_mul, Nat.one_mul, Nat.add_comm]]
    rw [List.take_add]
    congr 1
    rw [List.drop_drop]
    congr 1
    rw [Nat.add_mul, Nat.one_mul]

/-- C5 amended: for every store with at least one word, nonzero embedding
size, a matrix of exactly one row per word, and words free of whitespace
bytes (every store the package itself builds from a well-formed file
satisfies all of this), serializing with Write and loading the produced
stream with normalization disabled yields a store with the identical word
list, identical embedding size, and a bit-identical matrix — the same
(word, embedding) pairs. -/
theorem write_read_roundtrip (e : Embeddings) (hne : e.words ≠ [])
    (hd : e.embedSize ≠ 0)
    (hm : e.matrix.length = e.words.length * e.embedSize)
    (hwords : ∀ w ∈ e.words, ∀ c ∈ w.data, goSpace c = false) :
    ReadWord2VecBinary e.Write false
      = Except.ok ⟨e.matrix, e.embedSize, buildIndices e.words, e.words⟩ := by
  have h1 : e.words.length ≠ 0 := fun hc => hne (List.length_eq_zero.mp hc)
  unfold Embeddings.Write
  rw [if_neg h1, if_neg hd]
  unfold ReadWord2VecBinary
  have hs1 : scanNat ((natChars e.words.length).map BItem.chr ++ BItem.chr ' '
      :: ((natChars e.embedSize).map BItem.chr
        ++ BItem.chr '\n' :: writeRecords e e.words 0))
      = Except.ok (e.words.length, BItem.chr ' '
        :: ((natChars e.embedSize).map BItem.chr
          ++ BItem.chr '\n' :: writeRecords e e.words 0)) := by
    have := scanNat_stream ([] : List Char) (natChars e.words.length) ' '
      ((natChars e.embedSize).map BItem.chr ++ BItem.chr '\n' :: writeRecords e e.words 0)
      (by simp) (natChars_isDigit _) (natChars_ne_nil _) (by decide)
    rw [natOfChars_natChars] at this
    simpa using this
  rw [hs1]
  dsimp only
  have hs2 : scanNat (BItem.chr ' ' :: ((natChars e.embedSize).map BItem.chr
      ++ BItem.chr '\n' :: writeRecords e e.words 0))
      = Except.ok (e.embedSize, (BItem.chr '\n' : BItem ℚ) :: writeRecords e e.words 0) := by
    have := scanNat_stream [' '] (natChars e.embedSize) '\n'
      (writeRecords e e.words 0)
      (by intro c hc; simp only [List.mem_singleton] at hc; subst hc; decide)
      (natChars_isDigit _) (natChars_ne_nil _) (by decide)
    rw [natOfChars_natChars] at this
    simpa using this
  rw [hs2]
  dsimp only
  have hr : readRecords e.embedSize e.words.length
      ((BItem.chr '\n' : BItem ℚ) :: writeRecords e e.words 0)
      = Except.ok (pairsOf e e.words 0) := by
    have := readRecords_writeRecords e e.words 0 ['\n']
      (by intro c hc; simp only [List.mem_singleton] at hc; subst hc; exact ⟨by decide, by decide⟩)
      hwords
      (by simp [hm])
    simpa using this
  rw [hr]
  dsimp only
  simp only [if_neg (show ¬ (false = true) by decide)]
  rw [pairsOf_map_fst, pairsOf_map_snd_flatten]
  simp only [Nat.zero_mul, List.drop_zero]
  rw [← hm, List.take_length]

/-- C5 counterexample: the non-empty store built by NewEmbeddings(0) and a
successful Put of the empty embedding for "a" has embedding size 0, so Write
emits nothing, and loading the produced (empty) stream fails instead of
reproducing the store's (word, embedding) pairs. -/
theorem write_read_roundtrip_cex :
    ((NewEmbeddings 0).Put "a" []).2 = none ∧
    ((NewEmbeddings 0).Put "a" []).1.words = ["a"] ∧
    ((NewEmbeddings 0).Put "a" []).1.Write = [] ∧
    ReadWord2VecBinary ((NewEmbeddings 0).Put "a" []).1.Write false
      = Except.error "input does not match format" := by
  with_unfolding_all decide

/-- Witness for the round-trip theorem: the concrete three-word store
serializes and loads back to its own word list and matrix. -/
theorem write_read_roundtrip_witness :
    ReadWord2VecBinary demoStore.Write false
      = Except.ok ⟨demoStore.matrix, demoStore.embedSize,
          buildIndices demoStore.words, demoStore.words⟩ :=
  write_read_roundtrip demoStore (by with_unfolding_all decide)
    (by with_unfolding_all decide) (by with_unfolding_all decide)
    (by with_unfolding_all decide)

theorem mapLookup_mem (m : List (String × ℕ)) (k : String) (i : ℕ)
    (h : mapLookup m k = some i) : (k, i) ∈ m := by
  induction m with
  | nil => exact Option.noConfusion h
  | cons p rest ih =>
    unfold mapLookup at h
    split at h
    · have hv := Option.some.inj h
      have hp : p = (k, i) := by
        rcases p with ⟨pk, pv⟩
        simp only at *
        exact Prod.ext (by assumption) hv
      rw [← hp]
      exact List.mem_cons_self p rest
    · exact List.mem_cons_of_mem p (ih h)

theorem mapLookup_none_forall (m : List (String × ℕ)) (k : String)
    (h : mapLookup m k = none) : ∀ p ∈ m, p.1 ≠ k := by
  induction m with
  | nil => simp
  | cons p rest ih =>
    unfold mapLookup at h
    split at h
    · exact Option.noConfusion h
    · intro q hq
      rcases List.mem_cons.mp hq with h1 | h1
      · subst h1; assumption
      · exact ih h q h1

theorem mapInsert_fresh (m : List (String × ℕ)) (k : String) (v : ℕ)
    (h : ∀ p ∈ m, p.1 ≠ k) : mapInsert m k v = m ++ [(k, v)] := by
  induction m with
  | nil => rfl
  | cons p rest ih =>
    unfold mapInsert
    rw [if_neg (h p (List.mem_cons_self p rest))]
    rw [ih (fun q hq => h q (List.mem_cons_of_mem p hq))]
    rfl

theorem mapLookup_insert_self (m : List (String × ℕ)) (k : String) (v : ℕ) :
    mapLookup (mapInsert m k v) k = some v := by
  induction m with
  | nil => simp [mapInsert, mapLookup]
  | cons p rest ih =>
    unfold mapInsert
    split
    · simp [mapLookup]
    · unfold mapLookup
      rw [if_neg (by assumption)]
      exact ih

theorem mapLookup_insert_ne (m : List (String × ℕ)) (k : String) (v : ℕ)
    (k2 : String) (h : k2 ≠ k) :
    mapLookup (mapInsert m k v) k2 = mapLookup m k2 := by
  induction m with
  | nil =>
    simp only [mapInsert, mapLookup]
    rw [if_neg (fun hc => h hc.symm)]
  | cons p rest ih =>
    unfold mapInsert
    split
    · rename_i hpk
      unfold mapLookup
      rw [if_neg (fun hc => h hc.symm), if_neg (by rw [hpk]; exact fun hc => h hc.symm)]
    · unfold mapLookup
      split
      · rfl
      · exact ih

theorem buildIndicesAux_distinct :
    ∀ (ws : List String) (i : ℕ) (m : List (String × ℕ)), ws.Nodup →
    (∀ p ∈ m, p.1 ∉ ws) → buildIndicesAux i ws m = m ++ idxPairs i ws := by
  intro ws
  induction ws with
  | nil => intro i m _ _; simp [buildIndicesAux, idxPairs]
  | cons w t ih =>
    intro i m hnd hdis
    unfold buildIndicesAux idxPairs
    rw [mapInsert_fresh m w i (fun p hp => fun hc =>
      hdis p hp (by rw [hc]; exact List.mem_cons_self w t))]
    rw [ih (i + 1) (m ++ [(w, i)]) (List.Nodup.of_cons hnd) ?_]
    · rw [List.append_assoc]
      rfl
    · intro p hp
      rcases List.mem_append.mp hp with h1 | h1
      · exact fun hc => hdis p h1 (List.mem_cons_of_mem w hc)
      · simp only [List.mem_singleton] at h1
        subst h1
        exact (List.nodup_cons.mp hnd).1

theorem idxPairs_mem (ws : List String) :
    ∀ (i : ℕ) (p : String × ℕ), p ∈ idxPairs i ws →
    ∃ j, j < ws.length ∧ p.1 = ws.getD j "" ∧ p.2 = i + j := by
  induction ws with
  | nil => intro i p hp; exact absurd hp (List.not_mem_nil p)
  | cons w t ih =>
    intro i p hp
    unfold idxPairs at hp
    rcases List.mem_cons.mp hp with h1 | h1
    · exact ⟨0, by simp, by simp [h1], by simp [h1]⟩
    · obtain ⟨j, hj, h2, h3⟩ := ih (i + 1) p h1
      exact ⟨j + 1, by simpa using hj, by simpa using h2, by omega⟩

theorem getD_mem_of_lt {α : Type} (l : List α) (j : ℕ) (d : α)
    (h : j < l.length) : l.getD j d ∈ l := by
  rw [List.getD_eq_getElem l d h]
  exact List.getElem_mem h

theorem idxPairs_lookup (ws : List String) :
    ∀ (i j : ℕ), ws.Nodup → j < ws.length →
    mapLookup (idxPairs i ws) (ws.getD j "") = some (i + j) := by
  induction ws with
  | nil => intro i j _ hj; simp at hj
  | cons w t ih =>
    intro i j hnd hj
    match j with
    | 0 =>
      simp only [List.getD_cons_zero, idxPairs, mapLookup, if_pos rfl]
      rfl
    | j + 1 =>
      have hjt : j < t.length := by simpa using hj
      have hne : w ≠ t.getD j "" := by
        intro hc
        exact (List.nodup_cons.mp hnd).1 (hc ▸ getD_mem_of_lt t j "" hjt)
      simp only [List.getD_cons_succ, idxPairs, mapLookup]
      rw [if_neg hne, ih (i + 1) j (List.Nodup.of_cons hnd) hjt]
      congr 1
      omega

theorem idxPairs_length (ws : List String) : ∀ i, (idxPairs i ws).length = ws.length := by
  induction ws with
  | nil => intro i; rfl
  | cons w t ih =>
    intro i
    simp only [idxPairs, List.length_cons, ih (i + 1)]

theorem flatten_rows_length (rows : List (List ℚ)) (D : ℕ)
    (h : ∀ r ∈ rows, r.length = D) : rows.flatten.length = rows.length * D := by
  induction rows with
  | nil => simp
  | cons r t ih =>
    simp only [List.flatten_cons, List.length_append, List.length_cons]
    rw [h r (by simp), ih (fun x hx => h x (by simp [hx])), Nat.succ_mul, Nat.add_comm]

theorem readFloats_len {α : Type} :
    ∀ (n : ℕ) (s : List (BItem α)) (xs : List α) (r : List (BItem α)),
    readFloats n s = Except.ok (xs, r) → xs.length = n := by
  intro n
  induction n with
  | zero =>
    intro s xs r h
    simp only [readFloats] at h
    injection h with h1
    injection h1 with h2 h3
    simp [← h2]
  | succ n ih =>
    intro s xs r h
    match s with
    | [] => exact Except.noConfusion h
    | BItem.chr c :: rest => exact Except.noConfusion h
    | BItem.f32 x :: rest =>
      simp only [readFloats] at h
      cases hf : readFloats n rest with
      | error msg => rw [hf] at h; exact Except.noConfusion h
      | ok p =>
        obtain ⟨xs2, r2⟩ := p
        rw [hf] at h
        dsimp only at h
        injection h with h1
        injection h1 with h2 h3
        have := ih rest xs2 r2 hf
        rw [← h2]
        simp [this]

theorem readRecords_ok {α : Type} (vSize : ℕ) :
    ∀ (n : ℕ) (s : List (BItem α)) (pairs : List (String × List α)),
    readRecords vSize n s = Except.ok pairs →
    pairs.length = n ∧ ∀ p ∈ pairs, p.2.length = vSize := by
  intro n
  induction n with
  | zero =>
    intro s pairs h
    have := Except.ok.inj h
    subst this
    exact ⟨rfl, by simp⟩
  | succ n ih =>
    intro s pairs h
    unfold readRecords at h
    dsimp only at h
    cases hf : readFloats vSize (readToSpace s).2 with
    | error msg => rw [hf] at h; exact Except.noConfusion h
    | ok p =>
      obtain ⟨row, s2⟩ := p
      rw [hf] at h
      dsimp only at h
      cases hr : readRecords vSize n s2 with
      | error msg => rw [hr] at h; exact Except.noConfusion h
      | ok rest =>
        rw [hr] at h
        have hp := Except.ok.inj h
        subst hp
        obtain ⟨hlen, hrows⟩ := ih s2 rest hr
        refine ⟨by simp [hlen], ?_⟩
        intro q hq
        rcases List.mem_cons.mp hq with h1 | h1
        · rw [h1]
          exact readFloats_len vSize (readToSpace s).2 row s2 hf
        · exact hrows q h1

theorem normalizeEmbeddings_length (v : List ℚ) :
    (normalizeEmbeddings v).length = v.length := by
  simp [normalizeEmbeddings]

theorem getD_append_self {α : Type} (l : List α) (a d : α) :
    (l ++ [a]).getD l.length d = a := by
  induction l with
  | nil => rfl
  | cons x xs ih => simp [ih]

theorem lookupIdx_len (e : Embeddings)
    (hm : e.matrix.length = e.words.length * e.embedSize) (i : ℕ)
    (hi : i < e.words.length) : (e.lookupIdx i).length = e.embedSize := by
  unfold Embeddings.lookupIdx
  rw [List.length_take, List.length_drop, hm]
  have hmul : (i + 1) * e.embedSize ≤ e.words.length * e.embedSize :=
    Nat.mul_le_mul_right e.embedSize (by omega)
  rw [Nat.add_mul, one_mul] at hmul
  omega

theorem storeInv_build (ws : List String) (mtx : List ℚ) (D : ℕ)
    (hnd : ws.Nodup) (hmtx : mtx.length = ws.length * D) :
    StoreInv ⟨mtx, D, buildIndices ws, ws⟩ := by
  have hbuild : buildIndices ws = idxPairs 0 ws := by
    unfold buildIndices
    rw [buildIndicesAux_distinct ws 0 [] hnd (by simp)]
    rfl
  unfold StoreInv
  dsimp only
  rw [hbuild]
  refine ⟨?_, hmtx, hnd, ?_, ?_⟩
  · exact idxPairs_length ws 0
  · intro p hp
    obtain ⟨j, hj, h1, h2⟩ := idxPairs_mem ws 0 p hp
    refine ⟨by omega, ?_⟩
    rw [h2, Nat.zero_add, ← h1]
  · intro i hi
    have := idxPairs_lookup ws 0 i hnd hi
    simpa using this

/-- C9 amended: the index invariant — `index_of_word` and `word_at_index`
mutually inverse, indices dense in `0..word_count-1`, and the matrix exactly
`word_count` rows of `EmbeddingSize()` entries — holds for every store
produced by construction, holds after every Put on a store satisfying it,
and holds for every store Load produces from a stream whose parsed words
are pairwise distinct (with duplicated words, Load keeps the last index, as
documented, and density fails — see the counterexample). -/
theorem index_invariant :
    (∀ d, StoreInv (NewEmbeddings d))
  ∧ (∀ (e : Embeddings) (w : String) (v : List ℚ), StoreInv e → StoreInv (e.Put w v).1)
  ∧ (∀ (s : List (BItem ℚ)) (norm : Bool) (e : Embeddings),
      ReadWord2VecBinary s norm = Except.ok e → e.words.Nodup → StoreInv e)
  ∧ (∀ e : Embeddings, StoreInv e →
      (∀ (w : String) (i : ℕ), mapLookup e.indices w = some i →
        i < e.Size ∧ e.words.getD i "" = w)
      ∧ (∀ i, i < e.words.length → mapLookup e.indices (e.words.getD i "") = some i)
      ∧ e.Size = e.words.length
      ∧ (∀ i, i < e.words.length → (e.lookupIdx i).length = e.embedSize)) := by
  refine ⟨?_, ?_, ?_, ?_⟩
  · intro d
    refine ⟨rfl, by simp [NewEmbeddings], by simp [NewEmbeddings], ?_, ?_⟩
    · intro p hp
      exact absurd hp (List.not_mem_nil p)
    · intro i hi
      exact absurd hi (by simp [NewEmbeddings])
  · intro e w v hInv
    unfold Embeddings.Put
    by_cases hlen : v.length ≠ e.embedSize
    · rw [if_pos hlen]
      exact hInv
    · rw [if_neg hlen]
      push_neg at hlen
      obtain ⟨h1, h2, h3, h4, h5⟩ := hInv
      cases hl : mapLookup e.indices w with
      | some idx =>
        dsimp only
        refine ⟨h1, ?_, h3, h4, h5⟩
        rw [length_copyAt]
        exact h2
      | none =>
        dsimp only
        have hfresh : ∀ p ∈ e.indices, p.1 ≠ w := mapLookup_none_forall e.indices w hl
        have hnotmem : w ∉ e.words := by
          intro hmem
          obtain ⟨i, hi, hgi⟩ := List.mem_iff_getElem.mp hmem
          have hlook := h5 i hi
          rw [List.getD_eq_getElem e.words "" hi, hgi, hl] at hlook
          exact Option.noConfusion hlook
        refine ⟨?_, ?_, ?_, ?_, ?_⟩
        · rw [mapInsert_fresh _ _ _ hfresh]
          simp [h1]
        · simp only [List.length_append, List.length_singleton]
          rw [h2, hlen, Nat.add_mul, Nat.one_mul]
        · exact h3.append (List.nodup_singleton w)
            (fun a ha hb => hnotmem ((List.mem_singleton.mp hb) ▸ ha))
        · intro p hp
          rw [mapInsert_fresh _ _ _ hfresh] at hp
          rcases List.mem_append.mp hp with h6 | h6
          · obtain ⟨hlt, hget⟩ := h4 p h6
            refine ⟨by simp only [List.length_append, List.length_singleton]; omega, ?_⟩
            rw [List.getD_append e.words [w] "" p.2 hlt]
            exact hget
          · simp only [List.mem_singleton] at h6
            subst h6
            exact ⟨by simp, getD_append_self e.words w ""⟩
        · intro i hi
          simp only [List.length_append, List.length_singleton] at hi
          by_cases hilt : i < e.words.length
          · rw [List.getD_append e.words [w] "" i hilt]
            rw [mapLookup_insert_ne e.indices w e.words.length (e.words.getD i "")
              (fun hc => hnotmem (hc ▸ getD_mem_of_lt e.words i "" hilt))]
            exact h5 i hilt
          · have hieq : i = e.words.length := by omega
            subst hieq
            rw [getD_append_self e.words w ""]
            exact mapLookup_insert_self e.indices w e.words.length
  · intro s norm e hok hnd
    unfold ReadWord2VecBinary at hok
    cases hs1 : scanNat s with
    | error m => rw [hs1] at hok; exact Except.noConfusion hok
    | ok p1 =>
      obtain ⟨nW, s1⟩ := p1
      rw [hs1] at hok
      dsimp only at hok
      cases hs2 : scanNat s1 with
      | error m => rw [hs2] at hok; exact Except.noConfusion hok
      | ok p2 =>
        obtain ⟨vS, s2⟩ := p2
        rw [hs2] at hok
        dsimp only at hok
        cases hrr : readRecords vS nW s2 with
        | error m => rw [hrr] at hok; exact Except.noConfusion hok
        | ok pairs0 =>
          rw [hrr] at hok
          dsimp only at hok
          obtain ⟨hlen0, hrows0⟩ := readRecords_ok vS nW s2 pairs0 hrr
          have he := Except.ok.inj hok
          subst he
          dsimp only at hnd ⊢
          have hrows : ∀ r ∈ ((if norm then
                pairs0.map (fun p => (p.1, normalizeEmbeddings p.2))
              else pairs0).map Prod.snd), r.length = vS := by
            intro r hr
            simp only [List.mem_map] at hr
            obtain ⟨q, hq, rfl⟩ := hr
            by_cases hn : norm
            · rw [if_pos hn] at hq
              simp only [List.mem_map] at hq
              obtain ⟨q0, hq0, rfl⟩ := hq
              dsimp only
              rw [normalizeEmbeddings_length]
              exact hrows0 q0 hq0
            · rw [if_neg hn] at hq
              exact hrows0 q hq
          apply storeInv_build
          · exact hnd
          · rw [flatten_rows_length _ vS hrows]
            simp
  · intro e hInv
    obtain ⟨h1, h2, h3, h4, h5⟩ := hInv
    refine ⟨?_, h5, h1, ?_⟩
    · intro w i hli
      have hmem := mapLookup_mem e.indices w i hli
      have hwi := h4 (w, i) hmem
      refine ⟨?_, hwi.2⟩
      unfold Embeddings.Size
      omega
    · intro i hi
      exact lookupIdx_len e h2 i hi

/-- C9 counterexample: loading the well-formed `dupStream`, whose two
records both carry the word "a", succeeds and yields a store whose
word-count (`Size`, the index-map size) is 1, yet "a" is mapped to index 1
— not a member of the dense range `0..0` — and the matrix holds 2 rows,
not `word_count` rows: the bijective dense-index invariant fails for a
Load-produced store. -/
theorem index_invariant_cex :
    ReadWord2VecBinary dupStream false
      = Except.ok ⟨[1, 1], 1, [("a", 1)], ["a", "a"]⟩ ∧
    (Embeddings.mk [1, 1] 1 [("a", 1)] ["a", "a"]).Size = 1 ∧
    mapLookup (Embeddings.mk [1, 1] 1 [("a", 1)] ["a", "a"]).indices "a" = some 1 ∧
    ¬ (1 < (Embeddings.mk [1, 1] 1 [("a", 1)] ["a", "a"]).Size) ∧
    (Embeddings.mk [1, 1] 1 [("a", 1)] ["a", "a"]).matrix.length
      = 2 * (Embeddings.mk [1, 1] 1 [("a", 1)] ["a", "a"]).embedSize := by
  with_unfolding_all decide

/-- Witness for the index-invariant theorem: a fresh store, a store after a
Put, a store loaded from a duplicate-free stream, and the meaning of the
invariant on the concrete store. -/
theorem index_invariant_witness :
    StoreInv (NewEmbeddings 3) ∧
    StoreInv ((demoStore.Put "kiwi" [3, 3]).1) ∧
    StoreInv (Embeddings.mk [2] 1 [("a", 0)] ["a"]) ∧
    ((∀ (w : String) (i : ℕ), mapLookup demoStore.indices w = some i →
        i < demoStore.Size ∧ demoStore.words.getD i "" = w)
      ∧ (∀ i, i < demoStore.words.length →
          mapLookup demoStore.indices (demoStore.words.getD i "") = some i)
      ∧ demoStore.Size = demoStore.words.length
      ∧ (∀ i, i < demoStore.words.length →
          (demoStore.lookupIdx i).length = demoStore.embedSize)) :=
  ⟨index_invariant.1 3,
   index_invariant.2.1 demoStore "kiwi" [3, 3] (by with_unfolding_all decide),
   index_invariant.2.2.1
     [BItem.chr '1', BItem.chr ' ', BItem.chr '1', BItem.chr '\n',
      BItem.chr 'a', BItem.chr ' ', BItem.f32 2] false
     (Embeddings.mk [2] 1 [("a", 0)] ["a"])
     (by with_unfolding_all decide) (by with_unfolding_all decide),
   index_invariant.2.2.2 demoStore (by with_unfolding_all decide)⟩
